import Mathlib

/-!
Shallow embedding of a small C library: a zero-copy circular buffer over a
caller-supplied array (src/ring.c, src/ring.h) and a growable byte buffer
(src/buf.c, src/buf.h).

Machine integers (size_t) are modelled as natural numbers reduced modulo
2 ^ 64 wherever the C arithmetic can wrap.  Pointers are modelled
numerically: the `data` field is the base address of the backing store and
every address computation `(char *) data + i * size` becomes
`(data + (i * size) % W) % W`.  Out parameters of `ring_avail` / `ring_used`
become `Option` results selected by two booleans mirroring the `first` /
`last` null tests of the C code.  Functions that mutate the ring through the
pointer argument return the new state explicitly.
-/

namespace Smallstuff

/-- 2 ^ 64, the modulus of size_t arithmetic. -/
def W : Nat := 18446744073709551616

/-- SIZE_MAX for the modelled 64-bit size_t. -/
def SIZE_MAX : Nat := W - 1

/-- C size_t subtraction `a - b` with wraparound (exact for `a, b < W`). -/
def sub64 (a b : Nat) : Nat := (a + W - b) % W

/-- `struct ring` from ring.h: backing-store base address, element size,
capacity, physical index of the front element, number of occupied slots. -/
structure Ring where
  data : Nat
  size : Nat
  count : Nat
  start : Nat
  used : Nat
deriving DecidableEq

/-- `ring_index` (ring.c): maps a logical offset `n` from the front to a
physical slot index.  `until_end = count - start`;
`n >= until_end ? n - until_end : start + n`. -/
def ring_index (r : Ring) (n : Nat) : Nat :=
  let until_end := sub64 r.count r.start
  if n ≥ until_end then sub64 n until_end else (r.start + n) % W

/-- `ring_nth` (ring.c): `(char *) r->data + ring_index(r, n) * r->size`. -/
def ring_nth (r : Ring) (n : Nat) : Nat :=
  (r.data + (ring_index r n * r.size) % W) % W

/-- `ring_front` (ring.c). -/
def ring_front (r : Ring) : Option Nat :=
  if r.used = 0 then none else some (ring_nth r 0)

/-- `ring_back` (ring.c); `r->used - 1` is guarded by `used != 0`. -/
def ring_back (r : Ring) : Option Nat :=
  if r.used = 0 then none else some (ring_nth r (r.used - 1))

/-- `ring_push_back` (ring.c): fail when full, else `used++` and return the
address of the new last slot. -/
def ring_push_back (r : Ring) : Option Nat × Ring :=
  if r.used = r.count then (none, r)
  else
    let r2 : Ring := { r with used := (r.used + 1) % W }
    (some (ring_nth r2 (sub64 r2.used 1)), r2)

/-- `ring_pop_back` (ring.c): fail when empty, else `used--` and return the
address of the removed slot. -/
def ring_pop_back (r : Ring) : Option Nat × Ring :=
  if r.used = 0 then (none, r)
  else
    let r2 : Ring := { r with used := r.used - 1 }
    (some (ring_nth r2 r2.used), r2)

/-- `ring_push_front` (ring.c): fail when full, else decrement `start`
(wrapping `0` to `count - 1`), `used++`, return the new front address. -/
def ring_push_front (r : Ring) : Option Nat × Ring :=
  if r.used = r.count then (none, r)
  else
    let r2 : Ring :=
      { r with start := if r.start ≠ 0 then r.start - 1 else sub64 r.count 1,
               used := (r.used + 1) % W }
    (some (ring_nth r2 0), r2)

/-- `ring_pop_front` (ring.c): the source captures `old = ring_nth(r, 0)`
before testing `used == 0`; on the non-empty path `used--`, `start++`
wrapping at `count`, and `old` is returned. -/
def ring_pop_front (r : Ring) : Option Nat × Ring :=
  let old := ring_nth r 0
  if r.used = 0 then (none, r)
  else
    let s := (r.start + 1) % W
    let r2 : Ring := { r with used := r.used - 1, start := if s = r.count then 0 else s }
    (some old, r2)

/-- `ring_next` (ring.c): recover the physical index from the cursor
address, return null when the cursor is the back slot
(`index == (start + used - 1) % count`), otherwise
`ring_nth(r, index - start + 1)` with size_t wraparound. -/
def ring_next (r : Ring) (elem : Nat) : Option Nat :=
  let index := sub64 elem r.data / r.size
  if index = sub64 ((r.start + r.used) % W) 1 % r.count then none
  else some (ring_nth r ((sub64 index r.start + 1) % W))

/-- `ring_prev` (ring.c): return null when the cursor is the front slot
(`index == start`), otherwise step the physical index back (wrapping `0` to
`count - 1`) and return `ring_nth(r, index - start)` with size_t
wraparound. -/
def ring_prev (r : Ring) (elem : Nat) : Option Nat :=
  let index := sub64 elem r.data / r.size
  if index = r.start then none
  else
    let index2 := if index ≠ 0 then index - 1 else sub64 r.count 1
    some (ring_nth r (sub64 index2 r.start))

/-- Result of `ring_avail` / `ring_used`: the returned total plus the
optional `(*first, *fcount)` and `(*last, *lcount)` out parameters. -/
structure Regions where
  total : Nat
  first : Option (Nat × Nat)
  last : Option (Nat × Nat)
deriving DecidableEq

/-- `ring_avail` (ring.c).  `wantFirst` / `wantLast` mirror the null tests
on the `first` / `last` out parameters. -/
def ring_avail (r : Ring) (wantFirst wantLast : Bool) : Regions :=
  let first_avail := ring_index r r.used
  if !wantFirst then
    { total := sub64 r.count r.used, first := none, last := none }
  else if r.used = r.count then
    let f := (r.data + (first_avail * r.size) % W) % W
    { total := 0, first := some (f, 0),
      last := if wantLast then some (f, 0) else none }
  else if first_avail < r.start then
    let f := (r.data + (first_avail * r.size) % W) % W
    let fc := sub64 r.start first_avail
    { total := sub64 r.count r.used, first := some (f, fc),
      last := if wantLast then some ((f + (fc * r.size) % W) % W, 0) else none }
  else
    let f := (r.data + (first_avail * r.size) % W) % W
    { total := sub64 r.count r.used,
      first := some (f, sub64 r.count first_avail),
      last := if wantLast then some (r.data, r.start) else none }

/-- `ring_used` (ring.c), same out-parameter convention as `ring_avail`. -/
def ring_used (r : Ring) (wantFirst wantLast : Bool) : Regions :=
  if !wantFirst then
    { total := r.used, first := none, last := none }
  else if r.used = 0 then
    let f := (r.data + (r.start * r.size) % W) % W
    { total := 0, first := some (f, 0),
      last := if wantLast then some (f, 0) else none }
  else
    let last_used := ring_index r (r.used - 1)
    if last_used < r.start then
      let f := (r.data + (r.start * r.size) % W) % W
      { total := r.used, first := some (f, sub64 r.count r.start),
        last := if wantLast then some (r.data, (last_used + 1) % W) else none }
    else
      let f := (r.data + (r.start * r.size) % W) % W
      let fc := sub64 ((last_used + 1) % W) r.start
      { total := r.used, first := some (f, fc),
        last := if wantLast then some ((f + (fc * r.size) % W) % W, 0) else none }

/-- One step of the `RING_EACH` loop body (ring.h): collect the cursor, stop
when `ring_next` yields null.  Fuel bounds the unrolling. -/
def iterFrom (r : Ring) (cur : Nat) : Nat → List Nat
  | 0 => []
  | fuel + 1 =>
    cur :: match ring_next r cur with
      | none => []
      | some nxt => iterFrom r nxt fuel

/-- The `RING_EACH` traversal (ring.h): start at `ring_front`, follow
`ring_next` until it yields null, collecting the visited addresses. -/
def ringIter (r : Ring) (fuel : Nat) : List Nat :=
  match ring_front r with
  | none => []
  | some f => iterFrom r f fuel

/-- Observable evaluation events inside `ring_pop_front`, used to express
the order of the address computation and the emptiness test. -/
inductive PopEvent where
  | addrComputed : Nat → PopEvent
  | emptinessChecked : Bool → PopEvent
deriving DecidableEq

/-- Trace-level embedding of `ring_pop_front` (ring.c lines 71-84): the
source computes `old = ring_nth(r, 0)` on line 74 and only then tests
`r->used == 0` on line 75, so the event list records the address
computation first, then the emptiness check, in source order. -/
def ring_pop_front_events (r : Ring) : List PopEvent × (Option Nat × Ring) :=
  let old := ring_nth r 0
  if r.used = 0 then
    ([PopEvent.addrComputed old, PopEvent.emptinessChecked true], (none, r))
  else
    let s := (r.start + 1) % W
    let r2 : Ring := { r with used := r.used - 1, start := if s = r.count then 0 else s }
    ([PopEvent.addrComputed old, PopEvent.emptinessChecked false], (some old, r2))

/-- `struct buf` from buf.h.  The pluggable reallocator is modelled as an
optional pure function `(old data address, requested capacity) ->
optional new data address`; `none` is the null function pointer. -/
structure Buf where
  data : Nat
  size : Nat
  capacity : Nat
  realloc : Option (Nat → Nat → Option Nat)

/-- `buf_ensure_capacity` (buf.c).  The third component records the
capacities passed to the reallocator, in call order. -/
def buf_ensure_capacity (b : Buf) (cap : Nat) : Bool × Buf × List Nat :=
  if cap ≤ b.capacity then (true, b, [])
  else
    match b.realloc with
    | none => (false, b, [])
    | some f =>
      match f b.data cap with
      | none => (false, b, [cap])
      | some nd => (true, { b with data := nd, capacity := cap }, [cap])

/-- `buf_ensure_remaining` (buf.c): `capacity - size >= rem` test first,
then the `rem > SIZE_MAX - size` overflow test, then growth. -/
def buf_ensure_remaining (b : Buf) (rem : Nat) : Bool × Buf × List Nat :=
  if sub64 b.capacity b.size ≥ rem then (true, b, [])
  else if rem > sub64 SIZE_MAX b.size then (false, b, [])
  else buf_ensure_capacity b ((b.size + rem) % W)

/-- `buf_trim` (buf.c). -/
def buf_trim (b : Buf) : Bool × Buf × List Nat :=
  if b.size = b.capacity then (true, b, [])
  else
    match b.realloc with
    | none => (false, b, [])
    | some f =>
      match f b.data b.size with
      | none => (false, b, [b.size])
      | some nd => (true, { b with data := nd, capacity := b.size }, [b.size])

/-- `buf_append` (buf.c); only the header fields are modelled, the byte
copy touches memory, not the `struct buf`. -/
def buf_append (b : Buf) (sz : Nat) : Bool × Buf × List Nat :=
  match buf_ensure_remaining b sz with
  | (false, b2, t) => (false, b2, t)
  | (true, b2, t) => (true, { b2 with size := (b2.size + sz) % W }, t)

/-- `buf_deep_copy` (buf.c); only the destination header fields are
modelled, the byte copy touches memory, not the `struct buf`. -/
def buf_deep_copy (out inb : Buf) : Bool × Buf × List Nat :=
  match buf_ensure_capacity out inb.size with
  | (false, o2, t) => (false, o2, t)
  | (true, o2, t) => (true, { o2 with size := inb.size }, t)

/-- The ring state invariant from the spec: `used <= count`,
`start < count`. -/
def RingInv (r : Ring) : Prop := r.used ≤ r.count ∧ r.start < r.count

instance (r : Ring) : Decidable (RingInv r) := by
  unfold RingInv; infer_instance

/-! ### Arithmetic normalization lemmas -/

/-- `sub64` is exact subtraction when no wraparound occurs. -/
theorem sub64_eq (a b : Nat) (hba : b ≤ a) (ha : a < W) : sub64 a b = a - b := by
  simp only [sub64, W] at *
  omega

/-- Under the ring invariant, `ring_index` is the logical-to-physical map
`(start + n) % count` for logical offsets up to `count`. -/
theorem ring_index_eq (r : Ring) (n : Nat) (hs : r.start < r.count) (hc : r.count < W)
    (hn : n ≤ r.count) : ring_index r n = (r.start + n) % r.count := by
  have hue : sub64 r.count r.start = r.count - r.start :=
    sub64_eq r.count r.start (le_of_lt hs) hc
  simp only [ring_index, hue]
  split
  · rename_i h
    have hsub : sub64 n (r.count - r.start) = n - (r.count - r.start) :=
      sub64_eq n (r.count - r.start) h (lt_of_le_of_lt hn hc)
    have h2 : (r.start + n) % r.count = (r.start + n - r.count) % r.count :=
      Nat.mod_eq_sub_mod (by omega)
    rw [hsub, h2, Nat.mod_eq_of_lt (by omega)]
    omega
  · rename_i h
    rw [Nat.mod_eq_of_lt (by omega), Nat.mod_eq_of_lt (by omega)]

/-- Address arithmetic does not wrap when the whole backing store fits
below `W`. -/
theorem addr_eq (r : Ring) (x : Nat) (hx : x ≤ r.count) (hd : r.data + r.count * r.size < W) :
    (r.data + (x * r.size) % W) % W = r.data + x * r.size := by
  have h1 : x * r.size ≤ r.count * r.size := Nat.mul_le_mul_right r.size hx
  have h2 : x * r.size % W = x * r.size := Nat.mod_eq_of_lt (by omega)
  rw [h2, Nat.mod_eq_of_lt (by omega)]

/-- Variant of `addr_eq` with the inner reduction already performed (the
form simp normalization produces). -/
theorem addr_eq2 (r : Ring) (x : Nat) (hx : x ≤ r.count)
    (hd : r.data + r.count * r.size < W) :
    (r.data + x * r.size) % W = r.data + x * r.size := by
  have h1 : x * r.size ≤ r.count * r.size := Nat.mul_le_mul_right r.size hx
  exact Nat.mod_eq_of_lt (by omega)

/-- Under the ring invariant, `ring_nth` returns the in-bounds address
`data + ((start + n) % count) * size`. -/
theorem ring_nth_eq (r : Ring) (n : Nat) (hs : r.start < r.count) (hc : r.count < W)
    (hn : n ≤ r.count) (hd : r.data + r.count * r.size < W) :
    ring_nth r n = r.data + ((r.start + n) % r.count) * r.size := by
  have hi : ring_index r n = (r.start + n) % r.count := ring_index_eq r n hs hc hn
  have hlt : (r.start + n) % r.count < r.count := Nat.mod_lt _ (by omega)
  unfold ring_nth
  rw [hi, addr_eq r ((r.start + n) % r.count) (le_of_lt hlt) hd]

/-! ### Concrete sample states -/

/-- A full ring over a 3-slot, 1-byte-element store at address 1000, with a
wrapped occupied run: physical slots 2, 0, 1 hold the front, middle and
back elements. -/
def ringEx : Ring := { data := 1000, size := 1, count := 3, start := 2, used := 3 }

/-- An empty 3-slot ring with `start = 1`. -/
def ringEmptyEx : Ring := { data := 1000, size := 1, count := 3, start := 1, used := 0 }

/-- A 3-slot ring holding one element at physical index 0. -/
def ringZeroEx : Ring := { data := 1000, size := 1, count := 3, start := 0, used := 1 }

/-- The ring reached from a freshly initialized 3-slot ring by
`push_front; push_back; push_back` (no push on a full ring, no pop on an
empty one): `start = 2`, `used = 3`. -/
def ringSeqEx : Ring :=
  (ring_push_back (ring_push_back (ring_push_front
    { data := 1000, size := 1, count := 3, start := 0, used := 0 }).2).2).2

/-- A fixed-capacity buffer (no reallocator): 2 of 4 bytes used. -/
def bufFixedEx : Buf := { data := 500, size := 2, capacity := 4, realloc := none }

/-! ### Claim theorems -/

/-- Claim C1 (refuted; the code contradicts the contract documented in
ring.h and the spec).  On the valid full ring `ringEx` (count 3, element
size 1, store at 1000, `start = 2`, occupied run front-to-back at addresses
1002, 1000, 1001) the cursor 1000 lies in the wrapped portion (physical
index 0 < start) and is not the back (the back is 1001), so `ring_next`
must return 1001; instead `index - start + 1` underflows size_t and
`ring_next` returns 998, an address below the backing store.
Symmetrically `ring_prev` on cursor 1001 must return 1000 but returns 997.
The non-wrapped crossing (cursor 1002 to 1000) works, so the slip is
exactly the wrapped-cursor case the claim singles out. -/
theorem ring_next_wrapped_cursor_bug :
    RingInv ringEx
      ∧ ring_front ringEx = some 1002
      ∧ ring_back ringEx = some 1001
      ∧ ring_next ringEx 1002 = some 1000
      ∧ ring_next ringEx 1000 = some 998
      ∧ 998 < ringEx.data
      ∧ ring_prev ringEx 1001 = some 997
      ∧ 997 < ringEx.data := by decide

/-- Claim C2 (refuted; same underlying slip as C1).  `ringSeqEx` is reached
from a freshly initialized 3-slot ring by the legal sequence
`push_front; push_back; push_back` (never pushing on a full ring, never
popping on an empty one).  The net-count half of the claim holds
(`used = 3` = pushes minus pops), but the `RING_EACH` traversal
(`ring_front` then repeated `ring_next`) visits 1002, 1000 and then the
out-of-store addresses 998, 996, ... instead of visiting exactly the three
occupied slots and ending at `ring_back` = 1001. -/
theorem ring_iteration_bug :
    ringSeqEx = { data := 1000, size := 1, count := 3, start := 2, used := 3 }
      ∧ ringSeqEx.used = 3
      ∧ ring_back ringSeqEx = some 1001
      ∧ ringIter ringSeqEx 4 = [1002, 1000, 998, 996]
      ∧ ring_next ringSeqEx 998 = some 996 := by decide

/-- Claim C3, counterexample to the claim as stated.  On the empty ring
`ringEmptyEx` the trace-level embedding of `ring_pop_front` (which records
the source's evaluation order: ring.c line 74 computes
`old = ring_nth(r, 0)`, line 75 tests `used == 0`) shows that the address
1001 = data + start * size, derived from the ring's current state, is
computed before the emptiness check, refuting "returns NULL without first
evaluating the address of a slot". -/
theorem ring_pop_front_addr_before_check :
    ringEmptyEx.used = 0
      ∧ (ring_pop_front_events ringEmptyEx).1
          = [PopEvent.addrComputed 1001, PopEvent.emptinessChecked true]
      ∧ (ring_pop_front_events ringEmptyEx).1.head?
          ≠ some (PopEvent.emptinessChecked true)
      ∧ (ring_pop_front_events ringEmptyEx).2 = (none, ringEmptyEx) := by decide

/-- Claim C3 as amended: `ring_pop_front` on an empty ring computes the
address of the front slot, `data + start * size`, before its emptiness
check, but never dereferences it and the address stays within the backing
store under the state invariant; the call still returns the failure value
NULL with the ring unchanged. -/
theorem ring_pop_front_empty_path (r : Ring) (he : r.used = 0) (hs : r.start < r.count)
    (hcW : r.count < W) (hd : r.data + r.count * r.size < W) :
    ring_pop_front_events r
        = ([PopEvent.addrComputed (r.data + r.start * r.size),
            PopEvent.emptinessChecked true], (none, r))
      ∧ ring_pop_front r = (none, r)
      ∧ r.data ≤ r.data + r.start * r.size
      ∧ r.data + r.start * r.size + r.size ≤ r.data + r.count * r.size := by
  have h0 : ring_nth r 0 = r.data + r.start * r.size := by
    rw [ring_nth_eq r 0 hs hcW (by omega) hd, Nat.add_zero, Nat.mod_eq_of_lt hs]
  have hmul : (r.start + 1) * r.size ≤ r.count * r.size :=
    Nat.mul_le_mul_right r.size (by omega)
  have hdist : (r.start + 1) * r.size = r.start * r.size + r.size := by ring
  refine ⟨?_, ?_, by omega, by omega⟩
  · simp [ring_pop_front_events, he, h0]
  · simp [ring_pop_front, he]

/-- Witness for `ring_pop_front_empty_path` at the concrete empty ring
`ringEmptyEx`. -/
theorem ring_pop_front_empty_path_witness :
    ring_pop_front ringEmptyEx = (none, ringEmptyEx) :=
  (ring_pop_front_empty_path ringEmptyEx (by decide) (by decide) (by decide) (by decide)).2.1

/-- Claim C4: every operation of both components fails atomically.  A ring
push on a full ring and a ring pop / front / back on an empty ring return
the failure value (NULL) with the ring state unchanged, and every failing
GrowBuffer operation leaves all fields of the (destination) buffer —
data, size, capacity, realloc — unchanged. -/
theorem ops_fail_atomically :
    (∀ r : Ring, r.used = r.count → ring_push_back r = (none, r))
    ∧ (∀ r : Ring, r.used = r.count → ring_push_front r = (none, r))
    ∧ (∀ r : Ring, r.used = 0 → ring_pop_back r = (none, r))
    ∧ (∀ r : Ring, r.used = 0 → ring_pop_front r = (none, r))
    ∧ (∀ r : Ring, r.used = 0 → ring_front r = none)
    ∧ (∀ r : Ring, r.used = 0 → ring_back r = none)
    ∧ (∀ (b : Buf) (cap : Nat),
        (buf_ensure_capacity b cap).1 = false → (buf_ensure_capacity b cap).2.1 = b)
    ∧ (∀ (b : Buf) (rem : Nat),
        (buf_ensure_remaining b rem).1 = false → (buf_ensure_remaining b rem).2.1 = b)
    ∧ (∀ (b : Buf) (sz : Nat),
        (buf_append b sz).1 = false → (buf_append b sz).2.1 = b)
    ∧ (∀ b : Buf, (buf_trim b).1 = false → (buf_trim b).2.1 = b)
    ∧ (∀ out inb : Buf,
        (buf_deep_copy out inb).1 = false → (buf_deep_copy out inb).2.1 = out) := by
  have hcap : ∀ (b : Buf) (cap : Nat),
      (buf_ensure_capacity b cap).1 = false → (buf_ensure_capacity b cap).2.1 = b := by
    intro b cap h
    unfold buf_ensure_capacity at *
    by_cases h1 : cap ≤ b.capacity
    · simp [h1] at h
    · rcases hre : b.realloc with _ | f
      · simp [h1, hre]
      · rcases hf : f b.data cap with _ | nd
        · simp [h1, hre, hf]
        · simp [h1, hre, hf] at h
  have hrem : ∀ (b : Buf) (rem : Nat),
      (buf_ensure_remaining b rem).1 = false → (buf_ensure_remaining b rem).2.1 = b := by
    intro b rem h
    unfold buf_ensure_remaining at *
    by_cases h1 : sub64 b.capacity b.size ≥ rem
    · simp [h1] at h
    · by_cases h2 : rem > sub64 SIZE_MAX b.size
      · simp [h1, h2]
      · rw [if_neg h1, if_neg h2] at h ⊢
        exact hcap b ((b.size + rem) % W) h
  refine ⟨?_, ?_, ?_, ?_, ?_, ?_, hcap, hrem, ?_, ?_, ?_⟩
  · intro r h; simp [ring_push_back, h]
  · intro r h; simp [ring_push_front, h]
  · intro r h; simp [ring_pop_back, h]
  · intro r h; simp [ring_pop_front, h]
  · intro r h; simp [ring_front, h]
  · intro r h; simp [ring_back, h]
  · intro b sz h
    unfold buf_append at *
    rcases he : buf_ensure_remaining b sz with ⟨ok, b2, t⟩
    rcases ok with _ | _
    · simp only [he] at h ⊢
      have := hrem b sz
      rw [he] at this
      exact this rfl
    · simp [he] at h
  · intro b h
    unfold buf_trim at *
    by_cases h1 : b.size = b.capacity
    · simp [h1] at h
    · rcases hre : b.realloc with _ | f
      · simp [h1, hre]
      · rcases hf : f b.data b.size with _ | nd
        · simp [h1, hre, hf]
        · simp [h1, hre, hf] at h
  · intro out inb h
    unfold buf_deep_copy at *
    rcases he : buf_ensure_capacity out inb.size with ⟨ok, o2, t⟩
    rcases ok with _ | _
    · simp only [he] at h ⊢
      have := hcap out inb.size
      rw [he] at this
      exact this rfl
    · simp [he] at h

/-- Witness for `ops_fail_atomically`: a push on the full ring `ringEx`
fails without mutation, a pop on the empty ring `ringEmptyEx` fails without
mutation, and `buf_trim` on the fixed-capacity buffer `bufFixedEx` fails
without mutation. -/
theorem ops_fail_atomically_witness :
    ring_push_back ringEx = (none, ringEx)
      ∧ ring_pop_front ringEmptyEx = (none, ringEmptyEx)
      ∧ (buf_trim bufFixedEx).2.1 = bufFixedEx := by
  obtain ⟨h1, h2, h3, h4, h5, h6, h7, h8, h9, h10, h11⟩ := ops_fail_atomically
  exact ⟨h1 ringEx rfl, h4 ringEmptyEx rfl, h10 bufFixedEx rfl⟩

/-- Claim C5: on a valid ring (`count > 0`, `used <= count`,
`start < count`) every mutating ring operation — succeeding or failing —
leaves a state that still satisfies the invariant, with `count`, `data`
and `size` unchanged.  (`ring_front`, `ring_back`, `ring_avail`,
`ring_used` never write the ring at all: in this embedding they do not
even return a state, mirroring the C code, which never assigns to `r->`
fields in them.) -/
theorem ring_ops_preserve_invariant (r : Ring) (hc0 : 0 < r.count) (hcW : r.count < W)
    (hinv : RingInv r) :
    (RingInv (ring_push_back r).2 ∧ (ring_push_back r).2.count = r.count
      ∧ (ring_push_back r).2.data = r.data ∧ (ring_push_back r).2.size = r.size)
    ∧ (RingInv (ring_push_front r).2 ∧ (ring_push_front r).2.count = r.count
      ∧ (ring_push_front r).2.data = r.data ∧ (ring_push_front r).2.size = r.size)
    ∧ (RingInv (ring_pop_back r).2 ∧ (ring_pop_back r).2.count = r.count
      ∧ (ring_pop_back r).2.data = r.data ∧ (ring_pop_back r).2.size = r.size)
    ∧ (RingInv (ring_pop_front r).2 ∧ (ring_pop_front r).2.count = r.count
      ∧ (ring_pop_front r).2.data = r.data ∧ (ring_pop_front r).2.size = r.size) := by
  obtain ⟨hu, hs⟩ := hinv
  refine ⟨?_, ?_, ?_, ?_⟩
  · by_cases h : r.used = r.count
    · simp [ring_push_back, h, RingInv]
      omega
    · have hm : (r.used + 1) % W = r.used + 1 := Nat.mod_eq_of_lt (by omega)
      simp [ring_push_back, h, RingInv, hm]
      omega
  · by_cases h : r.used = r.count
    · simp [ring_push_front, h, RingInv]
      omega
    · have hm : (r.used + 1) % W = r.used + 1 := Nat.mod_eq_of_lt (by omega)
      have hc1 : sub64 r.count 1 = r.count - 1 := sub64_eq r.count 1 hc0 hcW
      by_cases h0 : r.start = 0
      · simp [ring_push_front, h, RingInv, hm, h0, hc1]
        omega
      · simp [ring_push_front, h, RingInv, hm, h0]
        omega
  · by_cases h : r.used = 0
    · simp [ring_pop_back, h, RingInv]
      omega
    · simp [ring_pop_back, h, RingInv]
      omega
  · by_cases h : r.used = 0
    · simp [ring_pop_front, h, RingInv]
      omega
    · have hm : (r.start + 1) % W = r.start + 1 := Nat.mod_eq_of_lt (by omega)
      simp only [ring_pop_front, if_neg h, hm, RingInv]
      by_cases hw : r.start + 1 = r.count
      · simp [hw]
        omega
      · simp [hw]
        omega

/-- Witness for `ring_ops_preserve_invariant` at the full wrapped ring
`ringEx`. -/
theorem ring_ops_preserve_invariant_witness :
    RingInv (ring_push_back ringEx).2 ∧ RingInv (ring_push_front ringEx).2
      ∧ RingInv (ring_pop_back ringEx).2 ∧ RingInv (ring_pop_front ringEx).2 := by
  obtain ⟨h1, h2, h3, h4⟩ :=
    ring_ops_preserve_invariant ringEx (by decide) (by decide) (by decide)
  exact ⟨h1.1, h2.1, h3.1, h4.1⟩

/-- Claim C6: on every valid ring the region descriptors of `ring_avail`
and `ring_used` follow the splitting rule.  For `ring_avail` the free run
begins at physical index `(start + used) % count` and has length
`count - used`; for `ring_used` the occupied run begins at `start` and has
length `used`.  If `begin + len > count` the two descriptors cover
`[begin, count)` and then `[0, begin + len - count)`; otherwise the first
descriptor is the single range `[begin, begin + len)` and the second is
zero-length.  Zero-length runs and runs ending exactly at `count` fall in
the second case. -/
theorem region_splitting_rule (r : Ring) (hc0 : 0 < r.count) (hcW : r.count < W)
    (hinv : RingInv r) (hd : r.data + r.count * r.size < W) :
    ((r.start + r.used) % r.count + (r.count - r.used) > r.count →
        (ring_avail r true true).first
            = some (r.data + (r.start + r.used) % r.count * r.size,
                    r.count - (r.start + r.used) % r.count)
          ∧ (ring_avail r true true).last
            = some (r.data, (r.start + r.used) % r.count + (r.count - r.used) - r.count))
    ∧ ((r.start + r.used) % r.count + (r.count - r.used) ≤ r.count →
        (ring_avail r true true).first
            = some (r.data + (r.start + r.used) % r.count * r.size, r.count - r.used)
          ∧ ∃ a2, (ring_avail r true true).last = some (a2, 0))
    ∧ (r.start + r.used > r.count →
        (ring_used r true true).first
            = some (r.data + r.start * r.size, r.count - r.start)
          ∧ (ring_used r true true).last = some (r.data, r.start + r.used - r.count))
    ∧ (r.start + r.used ≤ r.count →
        (ring_used r true true).first = some (r.data + r.start * r.size, r.used)
          ∧ ∃ a2, (ring_used r true true).last = some (a2, 0)) := by
  obtain ⟨hu, hs⟩ := hinv
  have hfa : ring_index r r.used = (r.start + r.used) % r.count :=
    ring_index_eq r r.used hs hcW hu
  have hmlt : (r.start + r.used) % r.count < r.count := Nat.mod_lt _ hc0
  set fa := (r.start + r.used) % r.count with hfad
  refine ⟨?_, ?_, ?_, ?_⟩
  · intro hw
    have huc : r.used < r.count := by omega
    by_cases hsum : r.start + r.used < r.count
    · have hfaeq : fa = r.start + r.used := by
        rw [hfad]; exact Nat.mod_eq_of_lt hsum
      have hne : ¬ r.used = r.count := by omega
      have hnlt : ¬ fa < r.start := by omega
      have ha1 : (r.data + fa * r.size % W) % W = r.data + fa * r.size :=
        addr_eq r fa (le_of_lt hmlt) hd
      have hs1 : sub64 r.count fa = r.count - fa :=
        sub64_eq r.count fa (le_of_lt hmlt) hcW
      refine ⟨?_, ?_⟩
      · simp [ring_avail, hfa, hne, hnlt, ha1, hs1]
      · simp [ring_avail, hfa, hne, hnlt, ha1]
        omega
    · exfalso
      have hfaeq : fa = r.start + r.used - r.count := by
        rw [hfad, Nat.mod_eq_sub_mod (by omega), Nat.mod_eq_of_lt (by omega)]
      omega
  · intro hnw
    by_cases hfull : r.used = r.count
    · have hfa2 : ring_index r r.count = r.start := by
        rw [ring_index_eq r r.count hs hcW le_rfl, Nat.add_mod_right]
        exact Nat.mod_eq_of_lt hs
      have hfaeq : fa = r.start := by
        rw [hfad, hfull, Nat.add_mod_right]
        exact Nat.mod_eq_of_lt hs
      have ha1 : (r.data + r.start * r.size % W) % W = r.data + r.start * r.size :=
        addr_eq r r.start (le_of_lt hs) hd
      have ha2 : (r.data + r.start * r.size) % W = r.data + r.start * r.size :=
        addr_eq2 r r.start (le_of_lt hs) hd
      refine ⟨?_, ?_⟩
      · simp [ring_avail, hfull, hfa2, hfaeq, ha1, ha2]
      · simp [ring_avail, hfull, hfa2, hfaeq, ha1, ha2]
    · by_cases hsum : r.start + r.used < r.count
      · have hfaeq : fa = r.start + r.used := by
          rw [hfad]; exact Nat.mod_eq_of_lt hsum
        have hs0 : r.start = 0 := by omega
        have hnlt : ¬ fa < r.start := by omega
        have ha1 : (r.data + fa * r.size % W) % W = r.data + fa * r.size :=
          addr_eq r fa (le_of_lt hmlt) hd
        have hs1 : sub64 r.count fa = r.count - fa :=
          sub64_eq r.count fa (le_of_lt hmlt) hcW
        refine ⟨?_, ?_⟩
        · simp [ring_avail, hfa, hfull, hnlt, ha1, hs1]
          omega
        · simp [ring_avail, hfa, hfull, hnlt, ha1, hs0]
      · have hfaeq : fa = r.start + r.used - r.count := by
          rw [hfad, Nat.mod_eq_sub_mod (by omega), Nat.mod_eq_of_lt (by omega)]
        have hlt2 : fa < r.start := by omega
        have ha1 : (r.data + fa * r.size % W) % W = r.data + fa * r.size :=
          addr_eq r fa (le_of_lt hmlt) hd
        have hs2 : sub64 r.start fa = r.start - fa :=
          sub64_eq r.start fa (le_of_lt hlt2) (lt_trans hs hcW)
        refine ⟨?_, ?_⟩
        · simp [ring_avail, hfa, hfull, hlt2, ha1, hs2]
          omega
        · simp [ring_avail, hfa, hfull, hlt2, ha1, hs2]
  · intro hw
    have hne0 : r.used ≠ 0 := by omega
    have hl1 : r.start + (r.used - 1) = r.start + r.used - 1 := by omega
    have hlu : ring_index r (r.used - 1) = r.start + r.used - 1 - r.count := by
      rw [ring_index_eq r (r.used - 1) hs hcW (by omega), hl1,
          Nat.mod_eq_sub_mod (by omega), Nat.mod_eq_of_lt (by omega)]
    have hcond : r.start + r.used - 1 - r.count < r.start := by omega
    have ha1 : (r.data + r.start * r.size % W) % W = r.data + r.start * r.size :=
      addr_eq r r.start (le_of_lt hs) hd
    have hs1 : sub64 r.count r.start = r.count - r.start :=
      sub64_eq r.count r.start (le_of_lt hs) hcW
    have hmW : (r.start + r.used - 1 - r.count + 1) % W = r.start + r.used - 1 - r.count + 1 :=
      Nat.mod_eq_of_lt (by omega)
    refine ⟨?_, ?_⟩
    · simp [ring_used, hne0, hlu, hcond, ha1, hs1]
    · simp [ring_used, hne0, hlu, hcond, hmW]
      omega
  · intro hnw
    by_cases h0 : r.used = 0
    · have ha1 : (r.data + r.start * r.size % W) % W = r.data + r.start * r.size :=
        addr_eq r r.start (le_of_lt hs) hd
      refine ⟨?_, ?_⟩
      · simp [ring_used, h0, ha1]
      · simp [ring_used, h0, ha1]
    · have hl1 : r.start + (r.used - 1) = r.start + r.used - 1 := by omega
      have hlu : ring_index r (r.used - 1) = r.start + r.used - 1 := by
        rw [ring_index_eq r (r.used - 1) hs hcW (by omega), hl1]
        exact Nat.mod_eq_of_lt (by omega)
      have hcond : ¬ (r.start + r.used - 1 < r.start) := by omega
      have hmW : (r.start + r.used - 1 + 1) % W = r.start + r.used - 1 + 1 :=
        Nat.mod_eq_of_lt (by omega)
      have hfc : sub64 (r.start + r.used - 1 + 1) r.start = r.used := by
        rw [sub64_eq _ _ (by omega) (by omega)]
        omega
      have ha1 : (r.data + r.start * r.size % W) % W = r.data + r.start * r.size :=
        addr_eq r r.start (le_of_lt hs) hd
      refine ⟨?_, ?_⟩
      · simp [ring_used, h0, hlu, hcond, hmW, hfc, ha1]
      · simp [ring_used, h0, hlu, hcond, hmW, hfc, ha1]

/-- Witness for `region_splitting_rule` at the full wrapped ring `ringEx`
(occupied run begins at `start = 2` with length 3, so it wraps and is
reported as `[2, 3)` then `[0, 2)`). -/
theorem region_splitting_rule_witness :
    (ring_used ringEx true true).first
        = some (ringEx.data + ringEx.start * ringEx.size, ringEx.count - ringEx.start)
      ∧ (ring_used ringEx true true).last
        = some (ringEx.data, ringEx.start + ringEx.used - ringEx.count) :=
  (region_splitting_rule ringEx (by decide) (by decide) (by decide) (by decide)).2.2.1
    (by decide)

/-- Claim C7: on a completely full valid ring (with a non-null backing
store), `ring_avail` with both region out parameters supplied returns
total 0 and two zero-length descriptors at the same valid non-null address
inside the backing store. -/
theorem ring_avail_full (r : Ring) (hfull : r.used = r.count) (_hc0 : 0 < r.count)
    (hs : r.start < r.count) (hcW : r.count < W) (hd0 : 0 < r.data)
    (hd : r.data + r.count * r.size < W) :
    ring_avail r true true
        = { total := 0, first := some (r.data + r.start * r.size, 0),
            last := some (r.data + r.start * r.size, 0) }
      ∧ 0 < r.data + r.start * r.size
      ∧ r.data ≤ r.data + r.start * r.size
      ∧ r.data + r.start * r.size ≤ r.data + r.count * r.size := by
  have hfa2 : ring_index r r.count = r.start := by
    rw [ring_index_eq r r.count hs hcW le_rfl, Nat.add_mod_right]
    exact Nat.mod_eq_of_lt hs
  have ha1 : (r.data + r.start * r.size % W) % W = r.data + r.start * r.size :=
    addr_eq r r.start (le_of_lt hs) hd
  have ha2 : (r.data + r.start * r.size) % W = r.data + r.start * r.size :=
    addr_eq2 r r.start (le_of_lt hs) hd
  have hmul : r.start * r.size ≤ r.count * r.size :=
    Nat.mul_le_mul_right r.size (le_of_lt hs)
  refine ⟨?_, by omega, by omega, by omega⟩
  simp [ring_avail, hfull, hfa2, ha1, ha2]

/-- Witness for `ring_avail_full` at the full ring `ringEx`. -/
theorem ring_avail_full_witness :
    ring_avail ringEx true true
        = { total := 0, first := some (ringEx.data + ringEx.start * ringEx.size, 0),
            last := some (ringEx.data + ringEx.start * ringEx.size, 0) } :=
  (ring_avail_full ringEx (by decide) (by decide) (by decide) (by decide) (by decide)
    (by decide)).1

/-- Claim C8: for every valid ring, the total returned by `ring_avail`
plus the total returned by `ring_used` equals `count`, whatever
combination of region out parameters is supplied. -/
theorem avail_plus_used_total (r : Ring) (f1 f2 g1 g2 : Bool) (hu : r.used ≤ r.count)
    (hcW : r.count < W) :
    (ring_avail r f1 f2).total + (ring_used r g1 g2).total = r.count := by
  have hs1 : sub64 r.count r.used = r.count - r.used := sub64_eq r.count r.used hu hcW
  unfold ring_avail ring_used
  cases f1 <;> cases g1 <;> simp [hs1] <;> (try split_ifs) <;> simp_all

/-- Witness for `avail_plus_used_total` at `ringEx` with mixed out
parameters. -/
theorem avail_plus_used_total_witness :
    (ring_avail ringEx true false).total + (ring_used ringEx false true).total
      = ringEx.count :=
  avail_plus_used_total ringEx true false false true (by decide) (by decide)

/-- Claim C9: on a non-full valid ring, `ring_push_back` immediately
followed by `ring_pop_back` restores the prior `(start, used)` pair, and
`ring_push_front` immediately followed by `ring_pop_front` does too,
including when the push wraps `start` from 0 to `count - 1`. -/
theorem push_pop_inverse (r : Ring) (hnf : r.used < r.count) (hs : r.start < r.count)
    (hcW : r.count < W) :
    ((ring_pop_back (ring_push_back r).2).2.start = r.start
      ∧ (ring_pop_back (ring_push_back r).2).2.used = r.used)
    ∧ ((ring_pop_front (ring_push_front r).2).2.start = r.start
      ∧ (ring_pop_front (ring_push_front r).2).2.used = r.used) := by
  have hne : r.used ≠ r.count := by omega
  have hm : (r.used + 1) % W = r.used + 1 := Nat.mod_eq_of_lt (by omega)
  constructor
  · simp [ring_push_back, hne, hm, ring_pop_back]
  · by_cases h0 : r.start = 0
    · have hc1 : sub64 r.count 1 = r.count - 1 := sub64_eq r.count 1 (by omega) hcW
      have hmc : (r.count - 1 + 1) % W = r.count := by
        rw [show r.count - 1 + 1 = r.count by omega]
        exact Nat.mod_eq_of_lt hcW
      simp [ring_push_front, hne, hm, h0, hc1, ring_pop_front, hmc]
    · have hms : (r.start - 1 + 1) % W = r.start := by
        rw [show r.start - 1 + 1 = r.start by omega]
        exact Nat.mod_eq_of_lt (by omega)
      have hne2 : r.start ≠ r.count := Nat.ne_of_lt hs
      simp [ring_push_front, hne, hm, h0, ring_pop_front, hms, hne2]

/-- Witness for `push_pop_inverse` at `ringZeroEx` (`start = 0`, so the
push-front / pop-front pair exercises the wrap of `start` to
`count - 1` and back). -/
theorem push_pop_inverse_witness :
    ((ring_pop_back (ring_push_back ringZeroEx).2).2.start = ringZeroEx.start
      ∧ (ring_pop_back (ring_push_back ringZeroEx).2).2.used = ringZeroEx.used)
    ∧ ((ring_pop_front (ring_push_front ringZeroEx).2).2.start = ringZeroEx.start
      ∧ (ring_pop_front (ring_push_front ringZeroEx).2).2.used = ringZeroEx.used) :=
  push_pop_inverse ringZeroEx (by decide) (by decide) (by decide)

/-- `buf_ensure_capacity` either fails or establishes the requested
capacity without touching the size field. -/
theorem buf_ensure_capacity_spec (b : Buf) (cap : Nat) :
    (buf_ensure_capacity b cap).1 = false
      ∨ (cap ≤ (buf_ensure_capacity b cap).2.1.capacity
          ∧ (buf_ensure_capacity b cap).2.1.size = b.size) := by
  unfold buf_ensure_capacity
  split
  · rename_i h1
    exact Or.inr ⟨h1, rfl⟩
  · split
    · exact Or.inl rfl
    · split
      · exact Or.inl rfl
      · exact Or.inr ⟨Nat.le_refl cap, rfl⟩

/-- Claim C10: for every GrowBuffer with `size <= capacity` (and `capacity`
representable in size_t), `buf_ensure_remaining` either succeeds having
established `capacity - size >= rem` or fails; and whenever `size + rem`
overflows size_t (`rem > SIZE_MAX - size`) it returns failure with the
buffer unchanged and with no reallocator invocation (empty call trace) —
the overflow is detected before any allocation attempt. -/
theorem ensure_remaining_overflow (b : Buf) (rem : Nat) (hbs : b.size ≤ b.capacity)
    (hbc : b.capacity < W) :
    ((buf_ensure_remaining b rem).1 = true →
        rem ≤ (buf_ensure_remaining b rem).2.1.capacity
                - (buf_ensure_remaining b rem).2.1.size)
    ∧ (rem > SIZE_MAX - b.size → buf_ensure_remaining b rem = (false, b, [])) := by
  have hWpos : 0 < W := by norm_num [W]
  have hSM : SIZE_MAX = W - 1 := rfl
  have h1 : sub64 b.capacity b.size = b.capacity - b.size := sub64_eq _ _ hbs hbc
  have h2 : sub64 SIZE_MAX b.size = SIZE_MAX - b.size := sub64_eq _ _ (by omega) (by omega)
  constructor
  · intro hok
    unfold buf_ensure_remaining at *
    by_cases hc1 : sub64 b.capacity b.size ≥ rem
    · rw [if_pos hc1]
      show rem ≤ b.capacity - b.size
      omega
    · by_cases hc2 : rem > sub64 SIZE_MAX b.size
      · rw [if_neg hc1, if_pos hc2] at hok
        exact Bool.noConfusion hok
      · rw [if_neg hc1, if_neg hc2] at hok ⊢
        have hm : (b.size + rem) % W = b.size + rem := Nat.mod_eq_of_lt (by omega)
        rw [hm] at hok ⊢
        rcases buf_ensure_capacity_spec b (b.size + rem) with hfail | ⟨hcap2, hsz2⟩
        · rw [hfail] at hok
          exact Bool.noConfusion hok
        · omega
  · intro hov
    unfold buf_ensure_remaining
    rw [if_neg (by omega), if_pos (by omega)]

/-- Witness for `ensure_remaining_overflow`: asking the fixed 4-byte
buffer `bufFixedEx` (2 bytes used) for `SIZE_MAX` more bytes overflows
`size + rem` and fails without mutation and without a reallocator call. -/
theorem ensure_remaining_overflow_witness :
    buf_ensure_remaining bufFixedEx (W - 1) = (false, bufFixedEx, []) :=
  (ensure_remaining_overflow bufFixedEx (W - 1) (by decide) (by decide)).2 (by decide)

end Smallstuff
